import Mathlib

/-!
Verification of the GO-VAE Model Explorer core (`app-GTEx.py`): the
ontology-term similarity-graph construction and community summarisation
pipeline.  The Python source is shallowly embedded below:

* numpy arrays become functions `Nat → Nat → ℚ`; the two arrays that the
  pipeline touches (`wsem_sim` and the request-local `group_sims`) are the
  fields of an explicit state record, so that in-place mutation is visible
  as state passing;
* pandas data frames become lists of records (`Row` for the Wilcoxon group
  table, `AnnotRow` for the ontology annotation table), kept in frame order;
* `pandas.sort_values` is modelled as a stable descending sort (the design
  documents the tie-break on equal keys as "first encountered in group
  order");
* Python dicts built by `dict(zip(ks, vs))` become association lists with a
  first-match lookup; a `KeyError` / `IndexError` / unpacking `ValueError`
  becomes `none` in an `Option`-valued result;
* the igraph collaborators (2-D layout, multilevel community detection) are
  external to the core and enter as parameters (`coords`, `membership`),
  exactly as the design treats them.
-/

namespace GOVAE

/-- One row of the ranked Wilcoxon result table for one tissue group
(`wilcox_results` after filtering and sorting): term identifier (`id`),
display name (`term`), gene-hit count (`genes`) and the term's index into
the global similarity matrix (`ind`). -/
structure Row where
  id : String
  term : String
  genes : Nat
  ind : Nat
deriving DecidableEq

/-- One row of the ontology annotation table `annot`
(`onto_trimmed_annot.csv`): GO identifier, display name, gene count and
depth in the ontology. -/
structure AnnotRow where
  GO_ID : String
  GO_term : String
  genes : Nat
  depth : Nat
deriving DecidableEq

/-- A node of the cytoscape render payload (lines 208-218 of the source).
The size transform `np.log(genes + 2) * 10` is a strictly monotone real
display transform applied by the rendering layer; the raw count is kept
here.  `x`,`y` carry the `* 50` display scaling of the layout coordinates,
`classes` is the community id rendered as a string. -/
structure Node where
  id : String
  label : String
  genes : Nat
  representative : Bool
  rep_label : Option String
  rep_label_hover : String
  x : ℚ
  y : ℚ
  classes : String
deriving DecidableEq

/-- An edge of the cytoscape render payload (lines 220-221 of the source):
endpoints, weight scaled `* 5` for display, and the community class of the
source node. -/
structure Edge where
  source : String
  target : String
  weight : ℚ
  classes : String
deriving DecidableEq

/-- The two numpy arrays the graph-construction step touches.  `wsem_sim`
is the global precomputed Wang semantic-similarity matrix (loaded once,
shared between requests); `group_sims` is the request-local working array
variable. -/
structure NumpyState where
  wsem_sim : Nat → Nat → ℚ
  group_sims : Nat → Nat → ℚ

/-- Lines 147-148: `group_sims = wsem_sim[group.ind.to_numpy(),:]` followed
by `group_sims = group_sims[:,group.ind.to_numpy()]`.  Integer-array
("fancy") indexing in numpy returns a fresh copy, never a view, so this
binds `group_sims` to a new array holding the principal submatrix of
`wsem_sim` selected by the group's matrix indices, leaving `wsem_sim`
untouched. -/
def select_rows_cols (s : NumpyState) (ind : List Nat) : NumpyState :=
  { s with group_sims := fun i j => s.wsem_sim (ind.getD i 0) (ind.getD j 0) }

/-- Line 151: `group_sims[group_sims < 0.5] = 0`.  Boolean-mask assignment
mutates the array currently bound to `group_sims` in place; it does not
touch `wsem_sim`. -/
def threshold_mask_assign (s : NumpyState) : NumpyState :=
  { s with group_sims := fun i j =>
      if s.group_sims i j < 1/2 then 0 else s.group_sims i j }

/-- Lines 147-151 composed: extract the group submatrix and zero every
entry strictly below the 0.5 threshold. -/
def build_group_sims (s : NumpyState) (ind : List Nat) : NumpyState :=
  threshold_mask_assign (select_rows_cols s ind)

/-- Line 154: `Graph.Weighted_Adjacency(group_sims, mode='undirected',
loops=False)` creates an edge between two distinct vertices exactly when
the corresponding (symmetric) matrix entry is non-zero; the diagonal is
ignored because `loops=False`. -/
def hasEdge (s : NumpyState) (ind : List Nat) (i j : Nat) : Prop :=
  i ≠ j ∧ (build_group_sims s ind).group_sims i j ≠ 0

/-- The weight igraph attaches to the (i,j) edge: the (thresholded) matrix
entry. -/
def edge_weight (s : NumpyState) (ind : List Nat) (i j : Nat) : ℚ :=
  (build_group_sims s ind).group_sims i j

/-- The raw, un-thresholded similarity of group members `i` and `j`: the
global matrix entry at their matrix indices. -/
def raw_sim (s : NumpyState) (ind : List Nat) (i j : Nat) : ℚ :=
  s.wsem_sim (ind.getD i 0) (ind.getD j 0)

/-- A Python dict built by `dict(zip(keys, values))`, with `d[k]` lookup:
first matching key wins, a missing key gives `none` (a `KeyError` in the
source). -/
def dictLookup {α β : Type} [DecidableEq α] (d : List (α × β)) (k : α) : Option β :=
  match d with
  | [] => none
  | (a, b) :: rest => if k = a then some b else dictLookup rest k

/-- Insert one element into a descending-sorted list, after any element
with an equal or larger key (so that, fed left to right, earlier rows stay
in front of later rows with the same key). -/
def insert_desc {α κ : Type} [LinearOrder κ] (key : α → κ) (r : α) : List α → List α
  | [] => [r]
  | s :: rest => if key s < key r then r :: s :: rest else s :: insert_desc key r rest

/-- `DataFrame.sort_values(key, ascending=False)`, modelled as a stable
descending sort: rows with equal keys keep their original (group) order.
The design fixes the tie-break of the selection steps built on this sort
as "first encountered in group order". -/
def sort_values_desc {α κ : Type} [LinearOrder κ] (key : α → κ) (rows : List α) : List α :=
  rows.foldl (fun acc r => insert_desc key r acc) []

/-- The head of a running descending-insertion fold: the current best row,
replaced only when a strictly larger key arrives (so the earliest row wins
ties).  Used to reason about `sort_values_desc ∘ List.head?`. -/
def best_step {α κ : Type} [LinearOrder κ] (key : α → κ) (o : Option α) (r : α) :
    Option α :=
  match o with
  | none => some r
  | some s => if key s < key r then some r else some s

/-- `Series.unique()` / dict-comprehension key order: the distinct values
of a list in order of first occurrence. -/
def unique_first (l : List Nat) : List Nat :=
  l.foldl (fun acc c => if c ∈ acc then acc else acc ++ [c]) []

/-!  ## Ontology graph traversal (source lines 106-130)

The ontology graph `onto_graph` is a JSON object mapping a term id to its
neighbour (parent) ids; it is embedded as an association list.  The
recursive Python `find_all_paths` terminates because a node already on the
current path is never revisited; the Lean measure makes that argument
explicit: the number of graph keys not yet on the path (doubled), plus one
if the current start node is itself a key. -/

/-- Termination measure for `find_all_paths`. -/
def fap_measure (graph : List (String × List String)) (start : String)
    (path : List String) : Nat :=
  2 * ((graph.map Prod.fst).filter (fun x => x ∉ path ++ [start])).length
    + (if start ∈ graph.map Prod.fst then 1 else 0)

/-- Source lines 106-118.  `find_all_paths(graph, start, end, path)`
appends `start` to the path, succeeds when `start == end`, gives up when
`start` is not a key of the graph, and otherwise recurses into every
neighbour that is not already on the (extended) path — a repeated node is
silently skipped, not reported.  The Python membership test
`start not in graph` and the subsequent indexing `graph[start]` are the
two outcomes of the association-list lookup. -/
def find_all_paths (graph : List (String × List String)) (start endv : String)
    (path : List String) : List (List String) :=
  if start = endv then [path ++ [start]]
  else
    match _h : dictLookup graph start with
    | none => []
    | some nbrs =>
      nbrs.flatMap (fun node =>
        if _hnp : node ∈ path ++ [start] then []
        else find_all_paths graph node endv (path ++ [start]))
termination_by fap_measure graph start path
decreasing_by
  have hk : ∀ (g : List (String × List String)) (v : String) (ns : List String),
      dictLookup g v = some ns → v ∈ g.map Prod.fst := by
    intro g v ns hg
    induction g with
    | nil => exact absurd hg (by simp [dictLookup])
    | cons e t ih =>
      obtain ⟨a, b⟩ := e
      by_cases he : v = a
      · exact List.mem_map.mpr ⟨(a, b), List.mem_cons_self _ _, he.symm⟩
      · simp only [dictLookup, if_neg he] at hg
        exact List.mem_cons_of_mem _ (ih hg)
  have hstart : start ∈ graph.map Prod.fst := hk graph start nbrs _h
  simp only [fap_measure]
  have hsub : List.Sublist
      ((graph.map Prod.fst).filter (fun x => x ∉ (path ++ [start]) ++ [node]))
      ((graph.map Prod.fst).filter (fun x => x ∉ path ++ [start])) := by
    apply List.monotone_filter_right
    intro a ha
    simp only [decide_eq_true_iff] at ha ⊢
    exact fun hmem => ha (List.mem_append_left _ hmem)
  rw [if_pos hstart]
  by_cases hnode : node ∈ graph.map Prod.fst
  · have hBmem : node ∈ (graph.map Prod.fst).filter
        (fun x => x ∉ path ++ [start]) := by
      rw [List.mem_filter]
      exact ⟨hnode, by simpa using _hnp⟩
    have hA : node ∉ (graph.map Prod.fst).filter
        (fun x => x ∉ (path ++ [start]) ++ [node]) := by
      intro hc
      have h2 := (List.mem_filter.mp hc).2
      simp at h2
    have hlt : ((graph.map Prod.fst).filter
          (fun x => x ∉ (path ++ [start]) ++ [node])).length <
        ((graph.map Prod.fst).filter (fun x => x ∉ path ++ [start])).length := by
      rcases Nat.lt_or_ge ((graph.map Prod.fst).filter
          (fun x => x ∉ (path ++ [start]) ++ [node])).length
          ((graph.map Prod.fst).filter (fun x => x ∉ path ++ [start])).length with h1 | h1
      · exact h1
      · exact absurd (hsub.eq_of_length (Nat.le_antisymm hsub.length_le h1) ▸ hBmem) hA
    have hflag : (if node ∈ graph.map Prod.fst then 1 else 0) ≤ 1 := by
      split <;> omega
    omega
  · rw [if_neg hnode]
    have hle := hsub.length_le
    omega

/-- Source line 121: `paths = [find_all_paths(graph, node, root, []) for
root in roots]`. -/
def ancestor_paths (node : String) (roots : List String)
    (graph : List (String × List String)) : List (List (List String)) :=
  roots.map (fun root => find_all_paths graph node root [])

/-- Source lines 122-124: keep the non-empty per-root path lists, chain
them together and collect every node appearing on any path into a set. -/
def ancestors_set (node : String) (roots : List String)
    (graph : List (String × List String)) : Finset String :=
  ((((ancestor_paths node roots graph).filter
      (fun l => 0 < l.length)).flatten).flatten).toFinset

/-- Source lines 120-125, `get_ancestors`: the set of all nodes on any
path from `node` to any root, or the singleton `{node}` when that set is
empty. -/
def get_ancestors (node : String) (roots : List String)
    (graph : List (String × List String)) : Finset String :=
  if 0 < (ancestors_set node roots graph).card then ancestors_set node roots graph
  else {node}

/-- Source lines 127-130, `get_comm_ancestors`: intersection of the
ancestor sets of all leaves.  Python's `set.intersection(*ancestors)`
raises a `TypeError` on an empty argument list, hence the `Option`. -/
def get_comm_ancestors (leaves : List String) (roots : List String)
    (graph : List (String × List String)) : Option (Finset String) :=
  match leaves.map (fun n => get_ancestors n roots graph) with
  | [] => none
  | a :: rest => some (rest.foldl (fun x y => x ∩ y) a)

/-!  ## Community post-processing (source lines 162-205)

The group data frame with its `community` column is embedded as
`List (Row × Nat)`: each row paired with the community id that
`community_multilevel` (an external igraph collaborator) assigned to it. -/

/-- The ids of the rows of community `c`, in group order
(`group[group.community == i].id.tolist()`, line 176). -/
def member_ids (g : List (Row × Nat)) (c : Nat) : List String :=
  (g.filter (fun p => p.2 = c)).map (fun p => p.1.id)

/-- Source line 176: one `(community, member ids)` entry per distinct
community id, in order of first occurrence (`group.community.unique()`). -/
def comm_members (g : List (Row × Nat)) : List (Nat × List String) :=
  (unique_first (g.map (fun p => p.2))).map (fun c => (c, member_ids g c))

/-- Source line 177: keep only the communities with more than one
member. -/
def multi_comm_members (g : List (Row × Nat)) : List (Nat × List String) :=
  (comm_members g).filter (fun p => 1 < p.2.length)

/-- Source line 182:
`group[group.id.isin(vals)].sort_values('genes', ascending=False).iloc[0,:].id`
— the id of the first row, in the gene-count-descending ordering, among
the group rows whose id belongs to `vals`.  `iloc[0]` on an empty frame
raises, hence the `Option`. -/
def community_representative (group : List Row) (vals : List String) : Option String :=
  ((sort_values_desc (fun r => r.genes) (group.filter (fun r => r.id ∈ vals))).head?).map
    (fun r => r.id)

/-- Source lines 180-182: the representative of every multi-member
community, in `comm_members` order. -/
def representatives (g : List (Row × Nat)) : List String :=
  (multi_comm_members g).filterMap
    (fun p => community_representative (g.map (fun q => q.1)) p.2)

/-- Source line 183:
`np.where(group['id'].isin(representatives), True, False)`. -/
def rep_flag (g : List (Row × Nat)) (r : Row) : Bool :=
  decide (r.id ∈ representatives g)

/-- Source line 198: `rep_dict = dict(zip(representatives, rep_labels))`. -/
def rep_dict (g : List (Row × Nat)) (rep_labels : List String) : List (String × String) :=
  (representatives g).zip rep_labels

/-- Source lines 199-200: `group['rep_label'] = group['id'].map(rep_dict)`
— `none` is pandas' NaN for ids that are not representatives. -/
def rep_label_of (g : List (Row × Nat)) (rep_labels : List String) (r : Row) :
    Option String :=
  dictLookup (rep_dict g rep_labels) r.id

/-- Source lines 190-196, the body of the representative-label loop for
one community, given its common-ancestor set `v` and its member ids:
* exactly one common ancestor: that ancestor's display name, looked up in
  the annotation table (`annot[annot.GO_ID.isin(v)].GO_term.iloc[0]`);
* no common ancestor: the display name of the member with the highest
  gene count in the annotation table
  (`annot[...isin(members)].sort_values('genes', ascending=False).iloc[0]`);
* several: the display name of the deepest common ancestor, ties broken by
  higher gene count
  (`annot[...isin(v)].sort_values(['depth','genes'], ascending=[False,False]).iloc[0]`).
`iloc[0]` on an empty selection raises an `IndexError`, hence the
`Option`. -/
def rep_label_for (v : Finset String) (members : List String)
    (annot : List AnnotRow) : Option String :=
  if v.card = 1 then
    ((annot.filter (fun r => r.GO_ID ∈ v)).head?).map (fun r => r.GO_term)
  else if v.card = 0 then
    ((sort_values_desc (fun r => r.genes)
        (annot.filter (fun r => r.GO_ID ∈ members))).head?).map (fun r => r.GO_term)
  else
    ((sort_values_desc (fun r => toLex (r.depth, r.genes))
        (annot.filter (fun r => r.GO_ID ∈ v))).head?).map (fun r => r.GO_term)

/-!  ## Colors (source lines 167-173) -/

/-- The fixed qualitative palette `plotly.express.colors.qualitative.Dark24`
(24 colors). -/
def Dark24 : List String :=
  ["#2E91E5", "#E15F99", "#1CA71C", "#FB0D0D", "#DA16FF", "#222A2A",
   "#B68100", "#750D86", "#EB663B", "#511CFB", "#00A08B", "#FB00D1",
   "#FC0080", "#B2828D", "#6C7C32", "#778AAE", "#862A16", "#A777F1",
   "#620042", "#1616A7", "#DA60CA", "#6C4516", "#0D2A63", "#AF0038"]

/-- Source lines 167-171: the color list for `n_comm` communities —
`Dark24[:n_comm]` when at most 24, otherwise
`Dark24 + Dark24[:n_comm-24]` (Python slicing caps the second copy at 24,
so at most 48 colors are ever produced). -/
def community_colors (n_comm : Nat) : List String :=
  if n_comm ≤ 24 then Dark24.take n_comm
  else Dark24 ++ Dark24.take (n_comm - 24)

/-- Ascending insertion used to model CPython's iteration order over a set
of small non-negative ints (`list(set(membership))`), which enumerates
them in ascending value order. -/
def insert_asc (c : Nat) : List Nat → List Nat
  | [] => [c]
  | a :: rest => if c ≤ a then c :: a :: rest else a :: insert_asc c rest

/-- `list(set(membership))` (line 172): the distinct membership values in
ascending order. -/
def sortedDistinct (l : List Nat) : List Nat :=
  (unique_first l).foldr insert_asc []

/-- Line 172: `color_map = dict(zip(list(set(membership)), colors))`. -/
def color_map (membership : List Nat) : List (Nat × String) :=
  (sortedDistinct membership).zip (community_colors (unique_first membership).length)

/-!  ## Render payload assembly (source lines 156, 159-160, 208-221) -/

/-- Source line 156: `group['x'], group['y'] = np.array(layout.coords).T`.
For a non-empty coordinate list the transposed array unpacks into the x
row and the y row; for an empty graph `layout.coords` is `[]`,
`np.array([])` is a one-dimensional array of length 0, and unpacking it
into two variables raises a `ValueError`. -/
def unpack2T (coords : List (ℚ × ℚ)) : Option (List ℚ × List ℚ) :=
  match coords with
  | [] => none
  | _ => some (coords.map (fun p => p.1), coords.map (fun p => p.2))

/-- Source lines 159-160: the igraph edge list of the thresholded
weighted adjacency matrix — one `(source id, target id, weight)` triple
per non-zero upper-triangle entry. -/
def edge_list (group : List Row) (sims : Nat → Nat → ℚ) :
    List (String × String × ℚ) :=
  (List.range group.length).flatMap (fun i =>
    ((List.range group.length).filter (fun j => i < j)).filterMap (fun j =>
      if sims i j = 0 then none
      else some ((group.getD i ⟨"", "", 0, 0⟩).id,
                 (group.getD j ⟨"", "", 0, 0⟩).id, sims i j)))

/-- Source lines 203-205: `rep_dict2 = dict(zip(comm_ancestors.keys(),
rep_labels))`, keyed by community id. -/
def rep_dict2 (g : List (Row × Nat)) (rep_labels : List String) :
    List (Nat × String) :=
  ((multi_comm_members g).map (fun p => p.1)).zip rep_labels

/-- One payload node (source lines 208-218) for the group row `p.1.1`
with community `p.1.2` at layout position `p.2`. -/
def mk_node (g : List (Row × Nat)) (rep_labels : List String)
    (p : (Row × Nat) × (ℚ × ℚ)) : Node :=
  { id := p.1.1.id
    label := p.1.1.term
    genes := p.1.1.genes
    representative := rep_flag g p.1.1
    rep_label := rep_label_of g rep_labels p.1.1
    rep_label_hover := (dictLookup (rep_dict2 g rep_labels) p.1.2).getD "None"
    x := p.2.1 * 50
    y := p.2.2 * 50
    classes := toString p.1.2 }

/-- The node list of the render payload (source lines 208-218). -/
def pipeline_nodes (g : List (Row × Nat)) (coords : List (ℚ × ℚ))
    (rep_labels : List String) : List Node :=
  (g.zip coords).map (mk_node g rep_labels)

/-- Source lines 136-221, `get_cytoscape_components`, restricted to the
data it computes (the static stylesheet is omitted).  External
collaborators enter as parameters: `coords` is `layout.coords` from the
igraph layout engine and `membership` is `community.membership` from
igraph's multilevel community detection; `annot`, `roots` and `onto` are
the process-global annotation table, root list and ontology graph.  Every
Python failure point (tuple-unpacking `ValueError` on line 156, color
`KeyError` on line 173, `TypeError` from `set.intersection` on line 129,
`IndexError` from `iloc[0]` on lines 192-196 and 221) is `none`. -/
def get_cytoscape_components (group : List Row) (wsem : Nat → Nat → ℚ)
    (coords : List (ℚ × ℚ)) (membership : List Nat)
    (annot : List AnnotRow) (roots : List String)
    (onto : List (String × List String)) : Option (List Node × List Edge) :=
  -- lines 147-151: request-local thresholded submatrix
  let s := build_group_sims ⟨wsem, fun _ _ => 0⟩ (group.map (fun r => r.ind))
  -- line 156: unpack the layout coordinates
  match unpack2T coords with
  | none => none
  | some xy =>
    -- lines 159-160: edge triples
    let es := edge_list group s.group_sims
    -- lines 163-164: attach community memberships
    let g := group.zip membership
    -- lines 167-173: community colors (`group['color'] = ...` raises
    -- KeyError when the palette ran out)
    match g.mapM (fun p => dictLookup (color_map membership) p.2) with
    | none => none
    | some _node_colors =>
      -- lines 176-177
      let cm := multi_comm_members g
      -- line 186
      match cm.mapM (fun p => get_comm_ancestors p.2 roots onto) with
      | none => none
      | some cas =>
        -- lines 189-196
        match (cm.zip cas).mapM (fun pc => rep_label_for pc.2 pc.1.2 annot) with
        | none => none
        | some rep_labels =>
          -- lines 208-218
          let nodes := pipeline_nodes g (xy.1.zip xy.2) rep_labels
          -- lines 220-221: edge dicts; the class of an edge is the
          -- community of the first group row carrying the source id
          match es.mapM (fun e =>
              (g.find? (fun p => p.1.id = e.1)).map (fun p =>
                ({ source := e.1, target := e.2.1, weight := e.2.2 * 5,
                   classes := toString p.2 } : Edge))) with
          | none => none
          | some edges => some (nodes, edges)

/-!  ## Helper lemmas: the stable descending sort -/

theorem head_insert_desc {α κ : Type} [LinearOrder κ] (key : α → κ) (r : α)
    (acc : List α) :
    (insert_desc key r acc).head? = best_step key acc.head? r := by
  cases acc with
  | nil => rfl
  | cons s rest =>
    by_cases h : key s < key r
    · simp [insert_desc, best_step, h]
    · simp [insert_desc, best_step, h]

theorem foldl_insert_head {α κ : Type} [LinearOrder κ] (key : α → κ) :
    ∀ (rows : List α) (acc : List α),
      ((rows.foldl (fun a r => insert_desc key r a) acc).head?) =
        rows.foldl (best_step key) acc.head? := by
  intro rows
  induction rows with
  | nil => intro acc; rfl
  | cons r rest ih =>
    intro acc
    simp only [List.foldl_cons]
    rw [ih, head_insert_desc]

theorem fold_best_seed {α κ : Type} [LinearOrder κ] (key : α → κ) :
    ∀ (rest : List α) (m : α), ∃ m',
      rest.foldl (best_step key) (some m) = some m' ∧
      ((m' = m ∧ ∀ s ∈ rest, key s ≤ key m) ∨
       (∃ l₁ l₂, rest = l₁ ++ m' :: l₂ ∧ key m < key m' ∧
         (∀ s ∈ l₁, key s < key m') ∧ (∀ s ∈ l₂, key s ≤ key m'))) := by
  intro rest
  induction rest with
  | nil => intro m; exact ⟨m, rfl, Or.inl ⟨rfl, by simp⟩⟩
  | cons r t ih =>
    intro m
    by_cases h : key m < key r
    · obtain ⟨m', hfold, hcase⟩ := ih r
      refine ⟨m', by simpa [best_step, h] using hfold, ?_⟩
      rcases hcase with ⟨rfl, hall⟩ | ⟨l₁, l₂, heq, hmr, hl₁, hl₂⟩
      · exact Or.inr ⟨[], t, rfl, h, by simp, hall⟩
      · refine Or.inr ⟨r :: l₁, l₂, by rw [heq, List.cons_append],
          lt_trans h hmr, ?_, hl₂⟩
        intro s hs
        rcases List.mem_cons.mp hs with rfl | hs
        · exact hmr
        · exact hl₁ s hs
    · obtain ⟨m', hfold, hcase⟩ := ih m
      refine ⟨m', by simpa [best_step, h] using hfold, ?_⟩
      rcases hcase with ⟨rfl, hall⟩ | ⟨l₁, l₂, heq, hmr, hl₁, hl₂⟩
      · refine Or.inl ⟨rfl, ?_⟩
        intro s hs
        rcases List.mem_cons.mp hs with rfl | hs
        · exact le_of_not_lt h
        · exact hall s hs
      · refine Or.inr ⟨r :: l₁, l₂, by rw [heq, List.cons_append], hmr, ?_, hl₂⟩
        intro s hs
        rcases List.mem_cons.mp hs with rfl | hs
        · exact lt_of_le_of_lt (le_of_not_lt h) hmr
        · exact hl₁ s hs

theorem head_sort_values_desc {α κ : Type} [LinearOrder κ] (key : α → κ)
    (rows : List α) (h : rows ≠ []) :
    ∃ m l₁ l₂, (sort_values_desc key rows).head? = some m ∧
      rows = l₁ ++ m :: l₂ ∧ (∀ s ∈ l₁, key s < key m) ∧
      (∀ s ∈ rows, key s ≤ key m) := by
  cases rows with
  | nil => exact absurd rfl h
  | cons r t =>
    have hh : (sort_values_desc key (r :: t)).head? =
        t.foldl (best_step key) (some r) := by
      rw [sort_values_desc, foldl_insert_head]
      rfl
    obtain ⟨m', hfold, hcase⟩ := fold_best_seed key t r
    rcases hcase with ⟨rfl, hall⟩ | ⟨l₁, l₂, heq, hmr, hl₁, hl₂⟩
    · refine ⟨m', [], t, by rw [hh, hfold], rfl, by simp, ?_⟩
      intro s hs
      rcases List.mem_cons.mp hs with rfl | hs
      · exact le_refl _
      · exact hall s hs
    · refine ⟨m', r :: l₁, l₂, by rw [hh, hfold], by rw [heq, List.cons_append], ?_, ?_⟩
      · intro s hs
        rcases List.mem_cons.mp hs with rfl | hs
        · exact hmr
        · exact hl₁ s hs
      · intro s hs
        rcases List.mem_cons.mp hs with rfl | hs
        · exact le_of_lt hmr
        · rw [heq] at hs
          rcases List.mem_append.mp hs with hs | hs
          · exact le_of_lt (hl₁ s hs)
          · rcases List.mem_cons.mp hs with rfl | hs
            · exact le_refl _
            · exact hl₂ s hs

theorem mem_insert_desc {α κ : Type} [LinearOrder κ] (key : α → κ) (r x : α) :
    ∀ (acc : List α), x ∈ insert_desc key r acc ↔ x = r ∨ x ∈ acc := by
  intro acc
  induction acc with
  | nil => simp [insert_desc]
  | cons s rest ih =>
    by_cases h : key s < key r
    · simp [insert_desc, h, List.mem_cons]
    · simp only [insert_desc, if_neg h, List.mem_cons, ih]
      tauto

theorem mem_sort_values_desc {α κ : Type} [LinearOrder κ] (key : α → κ)
    (rows : List α) (x : α) : x ∈ sort_values_desc key rows ↔ x ∈ rows := by
  suffices H : ∀ (l acc : List α),
      x ∈ l.foldl (fun a r => insert_desc key r a) acc ↔ x ∈ acc ∨ x ∈ l by
    rw [sort_values_desc, H]
    simp
  intro l
  induction l with
  | nil => intro acc; simp
  | cons r t ih =>
    intro acc
    simp only [List.foldl_cons]
    rw [ih, mem_insert_desc]
    simp only [List.mem_cons]
    tauto

/-!  ## Helper lemmas: dictionaries, duplicates, distinct values -/

theorem dictLookup_zip_ne_none {α β : Type} [DecidableEq α] :
    ∀ (as : List α) (bs : List β), as.length = bs.length →
      ∀ k, (dictLookup (as.zip bs) k ≠ none ↔ k ∈ as) := by
  intro as
  induction as with
  | nil => intro bs h k; simp [dictLookup]
  | cons a as' ih =>
    intro bs h k
    cases bs with
    | nil => simp at h
    | cons b bs' =>
      rw [List.zip_cons_cons]
      simp only [dictLookup]
      by_cases hk : k = a
      · simp [hk]
      · rw [if_neg hk, ih bs' (by simpa using h) k]
        simp [List.mem_cons, hk]

theorem dictLookup_some_mem_keys {α β : Type} [DecidableEq α] :
    ∀ (g : List (α × β)) (v : α) (ns : β),
      dictLookup g v = some ns → v ∈ g.map Prod.fst := by
  intro g v ns
  induction g with
  | nil => intro hg; exact absurd hg (by simp [dictLookup])
  | cons e t ih =>
    intro hg
    obtain ⟨a, b⟩ := e
    by_cases he : v = a
    · exact List.mem_map.mpr ⟨(a, b), List.mem_cons_self _ _, he.symm⟩
    · simp only [dictLookup, if_neg he] at hg
      exact List.mem_cons_of_mem _ (ih hg)

theorem nodup_map_inj {α β : Type} {f : α → β} :
    ∀ {l : List α}, (l.map f).Nodup → ∀ a ∈ l, ∀ b ∈ l, f a = f b → a = b := by
  intro l
  induction l with
  | nil => intro _ a ha; simp at ha
  | cons x t ih =>
    intro h a ha b hb hfab
    simp only [List.map_cons, List.nodup_cons] at h
    rcases List.mem_cons.mp ha with ha' | ha'
    · rcases List.mem_cons.mp hb with hb' | hb'
      · rw [ha', hb']
      · exfalso
        apply h.1
        rw [← ha', hfab]
        exact List.mem_map.mpr ⟨b, hb', rfl⟩
    · rcases List.mem_cons.mp hb with hb' | hb'
      · exfalso
        apply h.1
        rw [← hb', ← hfab]
        exact List.mem_map.mpr ⟨a, ha', rfl⟩
      · exact ih h.2 a ha' b hb' hfab

theorem mem_unique_first (x : Nat) :
    ∀ (l : List Nat), x ∈ unique_first l ↔ x ∈ l := by
  suffices H : ∀ (l acc : List Nat),
      x ∈ l.foldl (fun acc c => if c ∈ acc then acc else acc ++ [c]) acc ↔
        x ∈ acc ∨ x ∈ l by
    intro l
    rw [unique_first, H]
    simp
  intro l
  induction l with
  | nil => intro acc; simp
  | cons c t ih =>
    intro acc
    simp only [List.foldl_cons]
    rw [ih]
    by_cases hc : c ∈ acc
    · simp only [if_pos hc, List.mem_cons]
      constructor
      · rintro (h | h)
        · exact Or.inl h
        · exact Or.inr (Or.inr h)
      · rintro (h | rfl | h)
        · exact Or.inl h
        · exact Or.inl hc
        · exact Or.inr h
    · simp only [if_neg hc, List.mem_append, List.mem_singleton, List.mem_cons]
      tauto

theorem length_filterMap_all_some {α β : Type} (f : α → Option β) :
    ∀ (l : List α), (∀ a ∈ l, f a ≠ none) → (l.filterMap f).length = l.length := by
  intro l
  induction l with
  | nil => intro _; rfl
  | cons a t ih =>
    intro h
    have ha := h a (List.mem_cons_self a t)
    cases hfa : f a with
    | none => exact absurd hfa ha
    | some b =>
      simp only [List.filterMap_cons, hfa, List.length_cons]
      rw [ih (fun x hx => h x (List.mem_cons_of_mem a hx))]

/-!  ## Helper lemmas: the ancestor-path search -/

theorem fap_decr (graph : List (String × List String)) (start node : String)
    (path : List String) (hs : start ∈ graph.map Prod.fst)
    (hnp : node ∉ path ++ [start]) :
    fap_measure graph node (path ++ [start]) < fap_measure graph start path := by
  simp only [fap_measure]
  have hsub : List.Sublist
      ((graph.map Prod.fst).filter (fun x => x ∉ (path ++ [start]) ++ [node]))
      ((graph.map Prod.fst).filter (fun x => x ∉ path ++ [start])) := by
    apply List.monotone_filter_right
    intro a ha
    simp only [decide_eq_true_iff] at ha ⊢
    exact fun hmem => ha (List.mem_append_left _ hmem)
  rw [if_pos hs]
  by_cases hnode : node ∈ graph.map Prod.fst
  · have hBmem : node ∈ (graph.map Prod.fst).filter
        (fun x => x ∉ path ++ [start]) := by
      rw [List.mem_filter]
      exact ⟨hnode, by simpa using hnp⟩
    have hA : node ∉ (graph.map Prod.fst).filter
        (fun x => x ∉ (path ++ [start]) ++ [node]) := by
      intro hc
      have h2 := (List.mem_filter.mp hc).2
      simp at h2
    have hlt : ((graph.map Prod.fst).filter
          (fun x => x ∉ (path ++ [start]) ++ [node])).length <
        ((graph.map Prod.fst).filter (fun x => x ∉ path ++ [start])).length := by
      rcases Nat.lt_or_ge ((graph.map Prod.fst).filter
          (fun x => x ∉ (path ++ [start]) ++ [node])).length
          ((graph.map Prod.fst).filter (fun x => x ∉ path ++ [start])).length with h1 | h1
      · exact h1
      · exact absurd (hsub.eq_of_length (Nat.le_antisymm hsub.length_le h1) ▸ hBmem) hA
    have hflag : (if node ∈ graph.map Prod.fst then 1 else 0) ≤ 1 := by
      split <;> omega
    omega
  · rw [if_neg hnode]
    have hle := hsub.length_le
    omega

theorem find_all_paths_extend (graph : List (String × List String)) (endv : String) :
    ∀ (start : String) (path : List String) (p : List String),
      p ∈ find_all_paths graph start endv path →
        ∃ rest, p = (path ++ [start]) ++ rest := by
  suffices H : ∀ (n : Nat) (start : String) (path : List String),
      fap_measure graph start path = n →
        ∀ p ∈ find_all_paths graph start endv path,
          ∃ rest, p = (path ++ [start]) ++ rest by
    intro start path p hp
    exact H (fap_measure graph start path) start path rfl p hp
  intro n
  induction n using Nat.strong_induction_on with
  | _ n IH =>
    intro start path hm p hp
    unfold find_all_paths at hp
    split at hp
    · simp only [List.mem_singleton] at hp
      exact ⟨[], by simp [hp]⟩
    · split at hp
      · simp at hp
      · rename_i nbrs heq
        rw [List.mem_flatMap] at hp
        obtain ⟨node, hnode, hp⟩ := hp
        split at hp
        · simp at hp
        · rename_i hnp
          have hdec : fap_measure graph node (path ++ [start]) < n :=
            hm ▸ fap_decr graph start node path
              (dictLookup_some_mem_keys graph start nbrs heq) hnp
          obtain ⟨rest, hrest⟩ := IH _ hdec node (path ++ [start]) rfl p hp
          exact ⟨node :: rest, by rw [hrest]; simp⟩

theorem find_all_paths_nodup (graph : List (String × List String)) (endv : String) :
    ∀ (start : String) (path : List String), path.Nodup → start ∉ path →
      ∀ p ∈ find_all_paths graph start endv path, p.Nodup := by
  suffices H : ∀ (n : Nat) (start : String) (path : List String),
      fap_measure graph start path = n → path.Nodup → start ∉ path →
        ∀ p ∈ find_all_paths graph start endv path, p.Nodup by
    intro start path h1 h2 p hp
    exact H (fap_measure graph start path) start path rfl h1 h2 p hp
  intro n
  induction n using Nat.strong_induction_on with
  | _ n IH =>
    intro start path hm hnd hns p hp
    have hnd2 : (path ++ [start]).Nodup := by
      rw [List.nodup_append]
      refine ⟨hnd, List.nodup_singleton _, ?_⟩
      intro a ha hb
      rw [List.mem_singleton] at hb
      exact hns (hb ▸ ha)
    unfold find_all_paths at hp
    split at hp
    · simp only [List.mem_singleton] at hp
      exact hp ▸ hnd2
    · split at hp
      · simp at hp
      · rename_i nbrs heq
        rw [List.mem_flatMap] at hp
        obtain ⟨node, hnode, hp⟩ := hp
        split at hp
        · simp at hp
        · rename_i hnp
          have hdec : fap_measure graph node (path ++ [start]) < n :=
            hm ▸ fap_decr graph start node path
              (dictLookup_some_mem_keys graph start nbrs heq) hnp
          exact IH _ hdec node (path ++ [start]) rfl hnd2 hnp p hp

/-!  ## Helper lemmas: ancestor sets -/

theorem get_ancestors_self_mem (node : String) (roots : List String)
    (graph : List (String × List String)) :
    node ∈ get_ancestors node roots graph := by
  unfold get_ancestors
  split
  · rename_i hpos
    obtain ⟨x, hx⟩ := Finset.card_pos.mp hpos
    unfold ancestors_set at hx ⊢
    rw [List.mem_toFinset, List.mem_flatten] at hx
    obtain ⟨p, hpL, _⟩ := hx
    rw [List.mem_toFinset, List.mem_flatten]
    refine ⟨p, hpL, ?_⟩
    rw [List.mem_flatten] at hpL
    obtain ⟨ps, hps, hpps⟩ := hpL
    have hps' := (List.mem_filter.mp hps).1
    unfold ancestor_paths at hps'
    obtain ⟨root, _, rfl⟩ := List.mem_map.mp hps'
    obtain ⟨rest, hrest⟩ := find_all_paths_extend graph root node [] p hpps
    rw [hrest]
    simp
  · exact Finset.mem_singleton_self node

/-!  ## Claim theorems -/

/-- C2: `get_ancestors` always returns a non-empty set, and when the path
enumeration from the node to every root is empty (no path to any root),
it returns exactly the singleton `{node}`. -/
theorem claim_c2 (graph : List (String × List String)) (roots : List String)
    (node : String) :
    (get_ancestors node roots graph).Nonempty ∧
    ((∀ root ∈ roots, find_all_paths graph node root [] = []) →
      get_ancestors node roots graph = {node}) := by
  constructor
  · unfold get_ancestors
    split
    · rename_i hpos
      exact Finset.card_pos.mp hpos
    · exact ⟨node, Finset.mem_singleton_self node⟩
  · intro h
    have hempty : ancestors_set node roots graph = ∅ := by
      unfold ancestors_set ancestor_paths
      have hfil : (roots.map (fun root => find_all_paths graph node root [])).filter
          (fun l => 0 < l.length) = [] := by
        rw [List.filter_eq_nil_iff]
        intro a ha
        obtain ⟨root, hroot, rfl⟩ := List.mem_map.mp ha
        rw [h root hroot]
        simp
      rw [hfil]
      simp
    unfold get_ancestors
    rw [hempty]
    simp

/-- C2 witness: a node with an empty ontology graph has no path to the
root `R`, and its ancestor set is exactly `{"A"}`. -/
theorem claim_c2_witness :
    (∀ root ∈ (["R"] : List String),
        find_all_paths ([] : List (String × List String)) "A" root [] = []) ∧
      get_ancestors "A" ["R"] ([] : List (String × List String)) = {"A"} := by
  have h : ∀ root ∈ (["R"] : List String),
      find_all_paths ([] : List (String × List String)) "A" root [] = [] := by
    intro root hroot
    rw [List.mem_singleton] at hroot
    subst hroot
    rw [find_all_paths.eq_def]
    simp +decide [dictLookup]
  exact ⟨h, (claim_c2 [] ["R"] "A").2 h⟩

/-- C10: the start node lies on every enumerated ancestor path, the node
is always a member of its own `get_ancestors` set (through the paths when
any exist, through the singleton fallback otherwise), and consequently the
common-ancestor set of a leaf set can contain a member of that set — for
the singleton leaf list the common ancestors are exactly the node's own
ancestor set, which contains it. -/
theorem claim_c10 (graph : List (String × List String)) (roots : List String)
    (node endv : String) :
    ((find_all_paths graph node endv []).all (fun p => decide (node ∈ p)) = true)
    ∧ node ∈ get_ancestors node roots graph
    ∧ ∃ s, get_comm_ancestors [node] roots graph = some s ∧ node ∈ s := by
  refine ⟨?_, get_ancestors_self_mem node roots graph,
    get_ancestors node roots graph, rfl, get_ancestors_self_mem node roots graph⟩
  rw [List.all_eq_true]
  intro p hp
  obtain ⟨rest, hrest⟩ := find_all_paths_extend graph endv node [] p hp
  rw [decide_eq_true_iff, hrest]
  simp

/-- C8 counterexample: on a cyclic ontology graph (`A ↔ B`), the
ancestor-path search returns an ordinary result instead of aborting — the
repeated node is silently skipped and the single simple path `A → B → R`
comes back, so a detected cycle is not treated as a fatal error. -/
theorem claim_c8_counterexample :
    find_all_paths [("A", ["B"]), ("B", ["A", "R"])] "A" "R" [] =
      [["A", "B", "R"]] := by
  rw [find_all_paths.eq_def]
  simp +decide [dictLookup]
  rw [find_all_paths.eq_def]
  simp +decide [dictLookup]
  rw [find_all_paths.eq_def]
  simp +decide [dictLookup]

/-- C8 (amended): during ancestor-path search a node already on the
current path is silently skipped rather than reported: the search always
terminates with an ordinary list of paths, and starting from a duplicate-free
path every returned path is free of repeated nodes.  No fatal error or
diagnostic is produced on cyclic input. -/
theorem claim_c8 (graph : List (String × List String)) (start endv : String)
    (path : List String) (h1 : path.Nodup) (h2 : start ∉ path) :
    ∀ p ∈ find_all_paths graph start endv path, p.Nodup :=
  find_all_paths_nodup graph endv start path h1 h2

/-- C8 witness: on the cyclic graph `A ↔ B` the returned path
`A → B → R` has no repeated node. -/
theorem claim_c8_witness :
    (([] : List String).Nodup ∧ "A" ∉ ([] : List String)) ∧
      (["A", "B", "R"] : List String).Nodup := by
  have hmem : (["A", "B", "R"] : List String) ∈
      find_all_paths [("A", ["B"]), ("B", ["A", "R"])] "A" "R" [] := by
    rw [find_all_paths.eq_def]
    simp +decide [dictLookup]
    rw [find_all_paths.eq_def]
    simp +decide [dictLookup]
    rw [find_all_paths.eq_def]
    simp +decide [dictLookup]
  exact ⟨⟨List.nodup_nil, by simp⟩,
    claim_c8 [("A", ["B"]), ("B", ["A", "R"])] "A" "R" [] List.nodup_nil (by simp)
      ["A", "B", "R"] hmem⟩

/-- C1: for distinct group positions `i`, `j`, the thresholded weighted
adjacency built in lines 147-154 has an edge between node `i` and node `j`
iff the corresponding similarity-matrix value is at least 0.5, and the
weight of every such edge is the original, un-thresholded similarity
value. -/
theorem claim_c1 (s : NumpyState) (ind : List Nat) (i j : Nat) (h : i ≠ j) :
    (hasEdge s ind i j ↔ 1/2 ≤ raw_sim s ind i j) ∧
    (1/2 ≤ raw_sim s ind i j → edge_weight s ind i j = raw_sim s ind i j) := by
  have hG : edge_weight s ind i j =
      (if raw_sim s ind i j < 1/2 then 0 else raw_sim s ind i j) := rfl
  have hpos : (0 : ℚ) < 1/2 := by norm_num
  constructor
  · constructor
    · rintro ⟨-, hne⟩
      change edge_weight s ind i j ≠ 0 at hne
      rw [hG] at hne
      by_cases hlt : raw_sim s ind i j < 1/2
      · rw [if_pos hlt] at hne
        exact absurd rfl hne
      · exact le_of_not_lt hlt
    · intro hge
      refine ⟨h, ?_⟩
      change edge_weight s ind i j ≠ 0
      rw [hG, if_neg (not_lt.mpr hge)]
      exact ne_of_gt (lt_of_lt_of_le hpos hge)
  · intro hge
    rw [hG, if_neg (not_lt.mpr hge)]

/-- C1 witness: in a two-term group with off-diagonal similarity 3/5 the
edge between positions 0 and 1 exists iff 1/2 ≤ 3/5, and its weight is
the raw similarity. -/
theorem claim_c1_witness :
    (0 : Nat) ≠ 1 ∧
      ((hasEdge ⟨fun a b => if a = b then 1 else 3/5, fun _ _ => 0⟩ [0, 1] 0 1 ↔
          1/2 ≤ raw_sim ⟨fun a b => if a = b then 1 else 3/5, fun _ _ => 0⟩ [0, 1] 0 1) ∧
        (1/2 ≤ raw_sim ⟨fun a b => if a = b then 1 else 3/5, fun _ _ => 0⟩ [0, 1] 0 1 →
          edge_weight ⟨fun a b => if a = b then 1 else 3/5, fun _ _ => 0⟩ [0, 1] 0 1 =
            raw_sim ⟨fun a b => if a = b then 1 else 3/5, fun _ _ => 0⟩ [0, 1] 0 1)) :=
  ⟨by decide, claim_c1 ⟨fun a b => if a = b then 1 else 3/5, fun _ _ => 0⟩ [0, 1] 0 1 (by decide)⟩

/-- C9: building the thresholded group submatrix leaves the shared global
similarity matrix untouched — the fancy-indexing copy receives the
threshold assignment, and the working array holds exactly the thresholded
copy of the global entries. -/
theorem claim_c9 (s : NumpyState) (ind : List Nat) :
    (build_group_sims s ind).wsem_sim = s.wsem_sim ∧
    ∀ i j, (build_group_sims s ind).group_sims i j =
      (if s.wsem_sim (ind.getD i 0) (ind.getD j 0) < 1/2 then 0
       else s.wsem_sim (ind.getD i 0) (ind.getD j 0)) :=
  ⟨rfl, fun _ _ => rfl⟩

/-- C6 (the code evaluated at the failing input): for an empty TermGroup
the pipeline does not produce an empty payload — it aborts (`none`),
because the empty layout-coordinate array of the empty graph cannot be
unpacked into the x and y columns on source line 156 (`ValueError`). -/
theorem claim_c6 (wsem : Nat → Nat → ℚ) (membership : List Nat)
    (annot : List AnnotRow) (roots : List String)
    (onto : List (String × List String)) :
    get_cytoscape_components [] wsem [] membership annot roots onto = none := rfl

/-- C4: for a community's member-id set, the chosen representative is a
group row whose id is among the members, its gene-hit count is maximal
among the member rows, and it is the first row in group order among those
attaining the maximum (the rows of the filtered list before it all have
strictly smaller counts); exactly one representative is picked. -/
theorem claim_c4 (group : List Row) (vals : List String)
    (h : group.filter (fun r => r.id ∈ vals) ≠ []) :
    ∃ m l₁ l₂, community_representative group vals = some m.id ∧
      m ∈ group ∧ m.id ∈ vals ∧
      group.filter (fun r => r.id ∈ vals) = l₁ ++ m :: l₂ ∧
      (∀ s ∈ l₁, s.genes < m.genes) ∧
      (∀ s ∈ group, s.id ∈ vals → s.genes ≤ m.genes) := by
  obtain ⟨m, l₁, l₂, hhead, heq, hfront, hmax⟩ :=
    head_sort_values_desc (fun r : Row => r.genes) (group.filter (fun r => r.id ∈ vals)) h
  have hm : m ∈ group.filter (fun r => r.id ∈ vals) := by
    rw [heq]
    simp
  refine ⟨m, l₁, l₂, ?_, (List.mem_filter.mp hm).1,
    by simpa using (List.mem_filter.mp hm).2, heq, hfront, ?_⟩
  · unfold community_representative
    rw [hhead]
    rfl
  · intro s hs hsv
    apply hmax
    rw [List.mem_filter]
    exact ⟨hs, by simpa using hsv⟩

/-- C4 witness: among members GO2 and GO3, both with 7 gene hits, the
first in group order (GO2) is picked. -/
theorem claim_c4_witness :
    ([⟨"GO1", "t1", 5, 0⟩, ⟨"GO2", "t2", 7, 1⟩, ⟨"GO3", "t3", 7, 2⟩] : List Row).filter
        (fun r => r.id ∈ (["GO2", "GO3"] : List String)) ≠ [] ∧
      ∃ m l₁ l₂,
        community_representative
            [⟨"GO1", "t1", 5, 0⟩, ⟨"GO2", "t2", 7, 1⟩, ⟨"GO3", "t3", 7, 2⟩]
            ["GO2", "GO3"] = some m.id ∧
        m ∈ ([⟨"GO1", "t1", 5, 0⟩, ⟨"GO2", "t2", 7, 1⟩, ⟨"GO3", "t3", 7, 2⟩] : List Row) ∧
        m.id ∈ (["GO2", "GO3"] : List String) ∧
        ([⟨"GO1", "t1", 5, 0⟩, ⟨"GO2", "t2", 7, 1⟩, ⟨"GO3", "t3", 7, 2⟩] : List Row).filter
            (fun r => r.id ∈ (["GO2", "GO3"] : List String)) = l₁ ++ m :: l₂ ∧
        (∀ s ∈ l₁, s.genes < m.genes) ∧
        (∀ s ∈ ([⟨"GO1", "t1", 5, 0⟩, ⟨"GO2", "t2", 7, 1⟩, ⟨"GO3", "t3", 7, 2⟩] : List Row),
          s.id ∈ (["GO2", "GO3"] : List String) → s.genes ≤ m.genes) :=
  ⟨by decide,
    claim_c4 [⟨"GO1", "t1", 5, 0⟩, ⟨"GO2", "t2", 7, 1⟩, ⟨"GO3", "t3", 7, 2⟩]
      ["GO2", "GO3"] (by decide)⟩

/-- C3: the label of a multi-member community follows three cases over its
common-ancestor set: a single common ancestor gives that ancestor's
display name; an empty set gives the display name of a member with the
highest gene count; several common ancestors give the display name of one
of greatest depth, ties broken by highest gene count. -/
theorem claim_c3 :
    (∀ (annot : List AnnotRow) (members : List String) (a : String) (r : AnnotRow),
        (annot.map (fun x => x.GO_ID)).Nodup → r ∈ annot → r.GO_ID = a →
        rep_label_for {a} members annot = some r.GO_term) ∧
    (∀ (annot : List AnnotRow) (members : List String),
        (∃ r ∈ annot, r.GO_ID ∈ members) →
        ∃ m ∈ annot, m.GO_ID ∈ members ∧
          rep_label_for ∅ members annot = some m.GO_term ∧
          ∀ s ∈ annot, s.GO_ID ∈ members → s.genes ≤ m.genes) ∧
    (∀ (annot : List AnnotRow) (members : List String) (v : Finset String),
        1 < v.card → (∃ r ∈ annot, r.GO_ID ∈ v) →
        ∃ m ∈ annot, m.GO_ID ∈ v ∧
          rep_label_for v members annot = some m.GO_term ∧
          ∀ s ∈ annot, s.GO_ID ∈ v →
            s.depth ≤ m.depth ∧ (s.depth = m.depth → s.genes ≤ m.genes)) := by
  refine ⟨?_, ?_, ?_⟩
  · intro annot members a r hnd hr hra
    unfold rep_label_for
    rw [if_pos (Finset.card_singleton a)]
    have hrf : r ∈ annot.filter (fun x => x.GO_ID ∈ ({a} : Finset String)) := by
      rw [List.mem_filter]
      exact ⟨hr, by simp [hra]⟩
    cases hfil : annot.filter (fun x => x.GO_ID ∈ ({a} : Finset String)) with
    | nil =>
      rw [hfil] at hrf
      simp at hrf
    | cons r₀ t =>
      have hr₀ : r₀ ∈ annot.filter (fun x => x.GO_ID ∈ ({a} : Finset String)) := by
        rw [hfil]
        simp
      have h1 := (List.mem_filter.mp hr₀).1
      have h2 : r₀.GO_ID = a := by simpa using (List.mem_filter.mp hr₀).2
      have hr₀r : r₀ = r := nodup_map_inj hnd r₀ h1 r hr (by rw [h2, hra])
      simp [hr₀r]
  · intro annot members hex
    obtain ⟨r, hr, hrm⟩ := hex
    unfold rep_label_for
    rw [if_neg (by simp), if_pos Finset.card_empty]
    have hne : annot.filter (fun x => x.GO_ID ∈ members) ≠ [] :=
      List.ne_nil_of_mem (List.mem_filter.mpr ⟨hr, by simpa using hrm⟩)
    obtain ⟨m, l₁, l₂, hhead, heq, hfront, hmax⟩ :=
      head_sort_values_desc (fun x : AnnotRow => x.genes)
        (annot.filter (fun x => x.GO_ID ∈ members)) hne
    have hm : m ∈ annot.filter (fun x => x.GO_ID ∈ members) := by
      rw [heq]
      simp
    refine ⟨m, (List.mem_filter.mp hm).1, by simpa using (List.mem_filter.mp hm).2,
      ?_, ?_⟩
    · rw [hhead]
      rfl
    · intro s hs hsm
      exact hmax s (List.mem_filter.mpr ⟨hs, by simpa using hsm⟩)
  · intro annot members v hv hex
    obtain ⟨r, hr, hrm⟩ := hex
    unfold rep_label_for
    rw [if_neg (by omega), if_neg (by omega)]
    have hne : annot.filter (fun x => x.GO_ID ∈ v) ≠ [] :=
      List.ne_nil_of_mem (List.mem_filter.mpr ⟨hr, by simpa using hrm⟩)
    obtain ⟨m, l₁, l₂, hhead, heq, hfront, hmax⟩ :=
      head_sort_values_desc (fun x : AnnotRow => toLex (x.depth, x.genes))
        (annot.filter (fun x => x.GO_ID ∈ v)) hne
    have hm : m ∈ annot.filter (fun x => x.GO_ID ∈ v) := by
      rw [heq]
      simp
    refine ⟨m, (List.mem_filter.mp hm).1, by simpa using (List.mem_filter.mp hm).2,
      ?_, ?_⟩
    · rw [hhead]
      rfl
    · intro s hs hsv
      have hle := hmax s (List.mem_filter.mpr ⟨hs, by simpa using hsv⟩)
      rw [Prod.Lex.le_iff] at hle
      simp only [ofLex_toLex] at hle
      rcases hle with hlt | ⟨hd, hg⟩
      · refine ⟨le_of_lt hlt, fun he => ?_⟩
        rw [he] at hlt
        exact absurd hlt (lt_irrefl _)
      · exact ⟨le_of_eq hd, fun _ => hg⟩

theorem community_representative_ne_none (rows : List Row) (vals : List String)
    (h : rows.filter (fun r => r.id ∈ vals) ≠ []) :
    community_representative rows vals ≠ none := by
  obtain ⟨m, l₁, l₂, hhead, -, -, -⟩ :=
    head_sort_values_desc (fun r : Row => r.genes) (rows.filter (fun r => r.id ∈ vals)) h
  unfold community_representative
  rw [hhead]
  simp

theorem mem_multi_comm_members (g : List (Row × Nat)) (c : Nat) (vals : List String) :
    (c, vals) ∈ multi_comm_members g ↔
      c ∈ unique_first (g.map (fun q => q.2)) ∧ vals = member_ids g c ∧
        1 < (member_ids g c).length := by
  unfold multi_comm_members comm_members
  rw [List.mem_filter, List.mem_map]
  constructor
  · rintro ⟨⟨c', hc', heq⟩, hlen⟩
    have hc : c' = c := congrArg Prod.fst heq
    have hv : member_ids g c' = vals := congrArg Prod.snd heq
    subst hc
    refine ⟨hc', hv.symm, ?_⟩
    rw [hv]
    simpa using hlen
  · rintro ⟨h1, h2, h3⟩
    subst h2
    exact ⟨⟨c, h1, rfl⟩, by simpa using h3⟩

theorem mem_representatives (g : List (Row × Nat)) (x : String) :
    x ∈ representatives g ↔ ∃ c, c ∈ unique_first (g.map (fun q => q.2)) ∧
      1 < (member_ids g c).length ∧
      community_representative (g.map (fun q => q.1)) (member_ids g c) = some x := by
  unfold representatives
  rw [List.mem_filterMap]
  constructor
  · rintro ⟨⟨c, vals⟩, hp, hrep⟩
    rw [mem_multi_comm_members] at hp
    obtain ⟨h1, h2, h3⟩ := hp
    subst h2
    exact ⟨c, h1, h3, hrep⟩
  · rintro ⟨c, h1, h3, hrep⟩
    exact ⟨(c, member_ids g c),
      (mem_multi_comm_members g c (member_ids g c)).mpr ⟨h1, rfl, h3⟩, hrep⟩

theorem rep_of_comm_unique (g : List (Row × Nat))
    (hids : (g.map (fun p => p.1.id)).Nodup)
    (r : Row) (c : Nat) (hmem : (r, c) ∈ g) (c' : Nat)
    (hrep : community_representative (g.map (fun q => q.1)) (member_ids g c') =
      some r.id) : c' = c := by
  unfold community_representative at hrep
  rw [Option.map_eq_some'] at hrep
  obtain ⟨m, hhead, hmid⟩ := hrep
  have hmmem := List.mem_of_mem_head? hhead
  rw [mem_sort_values_desc] at hmmem
  have hm2 : m.id ∈ member_ids g c' := by
    simpa using (List.mem_filter.mp hmmem).2
  unfold member_ids at hm2
  rw [List.mem_map] at hm2
  obtain ⟨q, hq, hqid⟩ := hm2
  have hq2 : q.2 = c' := by simpa using (List.mem_filter.mp hq).2
  have hqg : q ∈ g := (List.mem_filter.mp hq).1
  have hrq : (r, c) = q := by
    apply nodup_map_inj hids (r, c) hmem q hqg
    show r.id = q.1.id
    rw [hqid, hmid]
  have hsnd := congrArg Prod.snd hrq
  rw [hq2] at hsnd
  exact hsnd.symm

theorem rep_flag_iff (g : List (Row × Nat))
    (hids : (g.map (fun p => p.1.id)).Nodup)
    (r : Row) (c : Nat) (hmem : (r, c) ∈ g) :
    (r.id ∈ representatives g) ↔
      (1 < (member_ids g c).length ∧
        community_representative (g.map (fun q => q.1)) (member_ids g c) =
          some r.id) := by
  rw [mem_representatives]
  constructor
  · rintro ⟨c', h1, h3, hrep⟩
    have hc : c' = c := rep_of_comm_unique g hids r c hmem c' hrep
    subst hc
    exact ⟨h3, hrep⟩
  · rintro ⟨h3, hrep⟩
    refine ⟨c, ?_, h3, hrep⟩
    rw [mem_unique_first]
    exact List.mem_map.mpr ⟨(r, c), hmem, rfl⟩

theorem length_representatives (g : List (Row × Nat)) :
    (representatives g).length = (multi_comm_members g).length := by
  unfold representatives
  apply length_filterMap_all_some
  intro p hp
  obtain ⟨c, vals⟩ := p
  rw [mem_multi_comm_members] at hp
  obtain ⟨h1, h2, h3⟩ := hp
  subst h2
  apply community_representative_ne_none
  have hne : member_ids g c ≠ [] := by
    intro h0
    rw [h0] at h3
    simp at h3
  obtain ⟨x, hx⟩ := List.exists_mem_of_ne_nil _ hne
  unfold member_ids at hx
  rw [List.mem_map] at hx
  obtain ⟨q, hq, hqid⟩ := hx
  have hqg : q ∈ g := (List.mem_filter.mp hq).1
  have hq1mem : q.1 ∈ (g.map (fun q => q.1)).filter
      (fun row => row.id ∈ member_ids g c) := by
    rw [List.mem_filter]
    refine ⟨List.mem_map.mpr ⟨q, hqg, rfl⟩, ?_⟩
    simp only [decide_eq_true_iff]
    unfold member_ids
    exact List.mem_map.mpr ⟨q, hq, rfl⟩
  exact List.ne_nil_of_mem hq1mem

theorem rep_label_of_ne_none_iff (g : List (Row × Nat)) (rep_labels : List String)
    (hlen : rep_labels.length = (multi_comm_members g).length) (r : Row) :
    rep_label_of g rep_labels r ≠ none ↔ r.id ∈ representatives g := by
  unfold rep_label_of rep_dict
  exact dictLookup_zip_ne_none (representatives g) rep_labels
    (by rw [length_representatives, hlen]) r.id

/-- C5: every node of the render payload corresponds to a group row, and
it carries the representative flag, and a persistent representative label,
exactly when that row is the chosen representative of a community with
more than one member; a node whose community has exactly one member
carries neither. -/
theorem claim_c5 (g : List (Row × Nat)) (coords : List (ℚ × ℚ))
    (rep_labels : List String)
    (hids : (g.map (fun p => p.1.id)).Nodup)
    (hlen : rep_labels.length = (multi_comm_members g).length) :
    ∀ nd ∈ pipeline_nodes g coords rep_labels,
      ∃ r c, (r, c) ∈ g ∧ nd.id = r.id ∧
        (nd.representative = true ↔
          (1 < (member_ids g c).length ∧
            community_representative (g.map (fun q => q.1)) (member_ids g c) =
              some r.id)) ∧
        (nd.rep_label ≠ none ↔
          (1 < (member_ids g c).length ∧
            community_representative (g.map (fun q => q.1)) (member_ids g c) =
              some r.id)) ∧
        ((member_ids g c).length = 1 →
          nd.representative = false ∧ nd.rep_label = none) := by
  intro nd hnd
  unfold pipeline_nodes at hnd
  rw [List.mem_map] at hnd
  obtain ⟨pc, hpc, hmk⟩ := hnd
  obtain ⟨⟨r, c⟩, xy⟩ := pc
  have hmemg : (r, c) ∈ g := (List.of_mem_zip hpc).1
  subst hmk
  have hflag_iff : rep_flag g r = true ↔
      (1 < (member_ids g c).length ∧
        community_representative (g.map (fun q => q.1)) (member_ids g c) =
          some r.id) := by
    unfold rep_flag
    rw [decide_eq_true_iff]
    exact rep_flag_iff g hids r c hmemg
  have hlab_iff : rep_label_of g rep_labels r ≠ none ↔
      (1 < (member_ids g c).length ∧
        community_representative (g.map (fun q => q.1)) (member_ids g c) =
          some r.id) := by
    rw [rep_label_of_ne_none_iff g rep_labels hlen r]
    exact rep_flag_iff g hids r c hmemg
  refine ⟨r, c, hmemg, rfl, hflag_iff, hlab_iff, ?_⟩
  intro hone
  constructor
  · have hne : ¬ (rep_flag g r = true) := by
      rw [hflag_iff]
      rintro ⟨hgt, -⟩
      omega
    show rep_flag g r = false
    cases hb : rep_flag g r
    · rfl
    · exact (hne hb).elim
  · show rep_label_of g rep_labels r = none
    apply not_ne_iff.mp
    rw [hlab_iff]
    rintro ⟨hgt, -⟩
    omega

/-- C5 witness: in a three-row group with communities `[0, 0, 1]` and one
rep label, the node of the first row (the representative of the
two-member community 0) satisfies the characterisation. -/
theorem claim_c5_witness :
    ∃ r c,
      (r, c) ∈ ([(⟨"GO1", "t1", 5, 0⟩, 0), (⟨"GO2", "t2", 3, 1⟩, 0),
        (⟨"GO3", "t3", 9, 2⟩, 1)] : List (Row × Nat)) ∧
      (mk_node [(⟨"GO1", "t1", 5, 0⟩, 0), (⟨"GO2", "t2", 3, 1⟩, 0),
        (⟨"GO3", "t3", 9, 2⟩, 1)] ["lbl"] ((⟨"GO1", "t1", 5, 0⟩, 0), (1, 2))).id = r.id ∧
      ((mk_node [(⟨"GO1", "t1", 5, 0⟩, 0), (⟨"GO2", "t2", 3, 1⟩, 0),
          (⟨"GO3", "t3", 9, 2⟩, 1)] ["lbl"]
          ((⟨"GO1", "t1", 5, 0⟩, 0), (1, 2))).representative = true ↔
        (1 < (member_ids [(⟨"GO1", "t1", 5, 0⟩, 0), (⟨"GO2", "t2", 3, 1⟩, 0),
            (⟨"GO3", "t3", 9, 2⟩, 1)] c).length ∧
          community_representative
            ([(⟨"GO1", "t1", 5, 0⟩, 0), (⟨"GO2", "t2", 3, 1⟩, 0),
              (⟨"GO3", "t3", 9, 2⟩, 1)].map (fun q => q.1))
            (member_ids [(⟨"GO1", "t1", 5, 0⟩, 0), (⟨"GO2", "t2", 3, 1⟩, 0),
              (⟨"GO3", "t3", 9, 2⟩, 1)] c) = some r.id)) ∧
      ((mk_node [(⟨"GO1", "t1", 5, 0⟩, 0), (⟨"GO2", "t2", 3, 1⟩, 0),
          (⟨"GO3", "t3", 9, 2⟩, 1)] ["lbl"]
          ((⟨"GO1", "t1", 5, 0⟩, 0), (1, 2))).rep_label ≠ none ↔
        (1 < (member_ids [(⟨"GO1", "t1", 5, 0⟩, 0), (⟨"GO2", "t2", 3, 1⟩, 0),
            (⟨"GO3", "t3", 9, 2⟩, 1)] c).length ∧
          community_representative
            ([(⟨"GO1", "t1", 5, 0⟩, 0), (⟨"GO2", "t2", 3, 1⟩, 0),
              (⟨"GO3", "t3", 9, 2⟩, 1)].map (fun q => q.1))
            (member_ids [(⟨"GO1", "t1", 5, 0⟩, 0), (⟨"GO2", "t2", 3, 1⟩, 0),
              (⟨"GO3", "t3", 9, 2⟩, 1)] c) = some r.id)) ∧
      ((member_ids [(⟨"GO1", "t1", 5, 0⟩, 0), (⟨"GO2", "t2", 3, 1⟩, 0),
          (⟨"GO3", "t3", 9, 2⟩, 1)] c).length = 1 →
        (mk_node [(⟨"GO1", "t1", 5, 0⟩, 0), (⟨"GO2", "t2", 3, 1⟩, 0),
          (⟨"GO3", "t3", 9, 2⟩, 1)] ["lbl"]
          ((⟨"GO1", "t1", 5, 0⟩, 0), (1, 2))).representative = false ∧
        (mk_node [(⟨"GO1", "t1", 5, 0⟩, 0), (⟨"GO2", "t2", 3, 1⟩, 0),
          (⟨"GO3", "t3", 9, 2⟩, 1)] ["lbl"]
          ((⟨"GO1", "t1", 5, 0⟩, 0), (1, 2))).rep_label = none) :=
  claim_c5 [(⟨"GO1", "t1", 5, 0⟩, 0), (⟨"GO2", "t2", 3, 1⟩, 0), (⟨"GO3", "t3", 9, 2⟩, 1)]
    [(1, 2), (3, 4), (5, 6)] ["lbl"] (by decide) (by decide)
    (mk_node [(⟨"GO1", "t1", 5, 0⟩, 0), (⟨"GO2", "t2", 3, 1⟩, 0),
      (⟨"GO3", "t3", 9, 2⟩, 1)] ["lbl"] ((⟨"GO1", "t1", 5, 0⟩, 0), (1, 2)))
    (List.mem_cons_self _ _)

/-- C3 witness: the three label cases evaluated on a two-row annotation
table — single common ancestor GO1, no common ancestor (fall back to the
member with most genes), and two common ancestors (deepest wins). -/
theorem claim_c3_witness :
    rep_label_for {"GO1"} []
        [⟨"GO1", "nameA", 5, 1⟩, ⟨"GO2", "nameB", 7, 2⟩] = some "nameA" ∧
    (∃ m ∈ ([⟨"GO1", "nameA", 5, 1⟩, ⟨"GO2", "nameB", 7, 2⟩] : List AnnotRow),
        m.GO_ID ∈ (["GO1", "GO2"] : List String) ∧
        rep_label_for ∅ ["GO1", "GO2"]
            [⟨"GO1", "nameA", 5, 1⟩, ⟨"GO2", "nameB", 7, 2⟩] = some m.GO_term ∧
        ∀ s ∈ ([⟨"GO1", "nameA", 5, 1⟩, ⟨"GO2", "nameB", 7, 2⟩] : List AnnotRow),
          s.GO_ID ∈ (["GO1", "GO2"] : List String) → s.genes ≤ m.genes) ∧
    (∃ m ∈ ([⟨"GO1", "nameA", 5, 1⟩, ⟨"GO2", "nameB", 7, 2⟩] : List AnnotRow),
        m.GO_ID ∈ ({"GO1", "GO2"} : Finset String) ∧
        rep_label_for {"GO1", "GO2"} []
            [⟨"GO1", "nameA", 5, 1⟩, ⟨"GO2", "nameB", 7, 2⟩] = some m.GO_term ∧
        ∀ s ∈ ([⟨"GO1", "nameA", 5, 1⟩, ⟨"GO2", "nameB", 7, 2⟩] : List AnnotRow),
          s.GO_ID ∈ ({"GO1", "GO2"} : Finset String) →
            s.depth ≤ m.depth ∧ (s.depth = m.depth → s.genes ≤ m.genes)) :=
  ⟨claim_c3.1 [⟨"GO1", "nameA", 5, 1⟩, ⟨"GO2", "nameB", 7, 2⟩] [] "GO1"
      ⟨"GO1", "nameA", 5, 1⟩ (by decide) (by decide) (by decide),
    claim_c3.2.1 [⟨"GO1", "nameA", 5, 1⟩, ⟨"GO2", "nameB", 7, 2⟩] ["GO1", "GO2"]
      ⟨⟨"GO1", "nameA", 5, 1⟩, by decide, by decide⟩,
    claim_c3.2.2 [⟨"GO1", "nameA", 5, 1⟩, ⟨"GO2", "nameB", 7, 2⟩] []
      {"GO1", "GO2"} (by decide)
      ⟨⟨"GO1", "nameA", 5, 1⟩, by decide, by decide⟩⟩

set_option maxRecDepth 10000 in
/-- C7 (the code evaluated at the failing input): with 49 distinct
community ids (0..48) the color list built on lines 167-171 holds only 48
colors, so assigning `group['color']` on line 173 fails — the 49th
community id is missing from the color map (`KeyError`) instead of
receiving a wrapped-around palette color. -/
theorem claim_c7 :
    (List.range 49).mapM (fun c => dictLookup (color_map (List.range 49)) c) =
      (none : Option (List String)) := by
  decide

end GOVAE
